import Mathlib

/-!
Verification of the `basebits` DNA-sequence encoding library.

The library packs a DNA string of up to 21 bases into a single `u64`
(3 bits per base), tracks undetermined positions in a second `u64`
mask (`nbits`), and offers two Hamming-distance functions: one that
treats `N` as a wildcard and one that scores every undetermined
position as a mismatch.

Machine `u64` values are modelled as `Nat` with explicit `% 2 ^ 64`
where the Rust operations wrap (shifts), and bitwise complement as
`xor` with the all-ones 64-bit word.
-/

/-- Size of the `u64` value space; wrapping operations reduce mod this. -/
def U64 : Nat := 2 ^ 64

/-- Rust `ENCODING_DIST`: pairwise bit distance between base codes. -/
def ENCODING_DIST : Nat := 2

/-- Rust `ENCODING_LENGTH`: bits per encoded base. -/
def ENCODING_LENGTH : Nat := 3

/-- Rust `CONTAINER_WIDTH`: bit width of the container word. -/
def CONTAINER_WIDTH : Nat := 64

/-- Rust `MAX_BASES = (CONTAINER_WIDTH / ENCODING_LENGTH) as usize`. -/
def MAX_BASES : Nat := CONTAINER_WIDTH / ENCODING_LENGTH

/-- Rust `UNDETERMINED: u64 = 0b100`. -/
def UNDETERMINED : Nat := 0b100

/-- Rust `MAX_VAL: u64 = u64::MAX`. -/
def MAX_VAL : Nat := 2 ^ 64 - 1

namespace Bases

/-- Code for base `A`. -/
def A : Nat := 0b000

/-- Code for base `C`. -/
def C : Nat := 0b110

/-- Code for base `T`. -/
def T : Nat := 0b101

/-- Code for base `G`. -/
def G : Nat := 0b011

/-- Code for `N` (alias for `UNDETERMINED`). -/
def N : Nat := UNDETERMINED

end Bases

/-- Bitwise complement of a 64-bit word (Rust unary `!` on `u64`). -/
def u64not (x : Nat) : Nat := x ^^^ MAX_VAL

/-- The `match` in `BaseBits::new` sending a byte to its 3-bit base code;
any byte other than `A`/`C`/`T`/`G` maps to `Bases::N`. -/
def baseOf (c : Nat) : Nat :=
  if c = 65 then Bases.A
  else if c = 67 then Bases.C
  else if c = 84 then Bases.T
  else if c = 71 then Bases.G
  else Bases.N

/-- The `match` in `BaseBits::new` choosing the 3-bit group ORed into
`nbits`: `0b000` for an undetermined byte, `0b111` otherwise. -/
def maskOf (c : Nat) : Nat := if baseOf c = Bases.N then 0b000 else 0b111

/-- The Rust `BaseBits` struct: packed code, known-mask and input length. -/
structure BaseBits where
  code : Nat
  nbits : Nat
  len : Nat
deriving DecidableEq

/-- One iteration of the encoding loop of `BaseBits::new`: shift a new
3-bit group into `code` and the corresponding group into `nbits`.
Rust `u64` shifts wrap, hence the `% U64`. -/
def encodeStep (p : Nat × Nat) (c : Nat) : Nat × Nat :=
  (((p.1 <<< ENCODING_LENGTH) % U64) ||| baseOf c,
    if baseOf c = Bases.N then ((p.2 <<< ENCODING_LENGTH) % U64) ||| 0b000
    else ((p.2 <<< ENCODING_LENGTH) % U64) ||| 0b111)

/-- Rust `BaseBits::new`: rejects inputs longer than `MAX_BASES`, else
folds `encodeStep` over the bytes starting from `code = 0`,
`nbits = !0`. -/
def BaseBits.new (seq : List Nat) : Except String BaseBits :=
  if seq.length > MAX_BASES then
    Except.error "Length of string to encode exceeds MAX_BASES"
  else
    let p := seq.foldl encodeStep (0, MAX_VAL)
    Except.ok { code := p.1, nbits := p.2, len := seq.length }

/-- Rust `extract_bits(n, k) = !(!0u64 << k) & n`. -/
def extract_bits (n : Nat) (k : Nat) : Nat :=
  u64not ((u64not 0 <<< k) % U64) &&& n

/-- The `match` in `BaseBits::decode` sending a 3-bit group back to a
byte; any group that is not a determined base code becomes `b'N'`. -/
def decodeChar (base : Nat) : Nat :=
  if base = Bases.A then 65
  else if base = Bases.C then 67
  else if base = Bases.T then 84
  else if base = Bases.G then 71
  else 78

/-- The loop of `BaseBits::decode`: read `len` low 3-bit groups,
shifting right after each. -/
def decodeLoop : Nat → Nat → List Nat
  | 0, _ => []
  | n + 1, code =>
      decodeChar (extract_bits code ENCODING_LENGTH) ::
        decodeLoop n (code >>> ENCODING_LENGTH)

/-- Rust `BaseBits::decode`: the pushed bytes are reversed at the end. -/
def BaseBits.decode (b : BaseBits) : List Nat :=
  (decodeLoop b.len b.code).reverse

/-- Population count of the low `w` bits of `n`. -/
def popCountWidth : Nat → Nat → Nat
  | 0, _ => 0
  | w + 1, n => n % 2 + popCountWidth w (n / 2)

/-- Rust `u64::count_ones`: population count of a 64-bit word. -/
def count_ones (n : Nat) : Nat := popCountWidth CONTAINER_WIDTH n

/-- Rust `hamming_dist_nany`: masked XOR popcount over determined
positions, divided by the per-mismatch bit distance. -/
def hamming_dist_nany (alpha beta : BaseBits) : Nat :=
  count_ones ((alpha.code ^^^ beta.code) &&& (alpha.nbits &&& beta.nbits)) /
    ENCODING_DIST

/-- Rust `hamming_dist_none`: the `hamming_dist_nany` term plus a
penalty of one per group where either operand is undetermined. -/
def hamming_dist_none (alpha beta : BaseBits) : Nat :=
  count_ones ((alpha.code ^^^ beta.code) &&& (alpha.nbits &&& beta.nbits)) /
    ENCODING_DIST +
  count_ones (u64not (alpha.nbits &&& beta.nbits)) / ENCODING_LENGTH

namespace hamming

/-- Rust `hamming::hamming_code`: raw XOR popcount halved. -/
def hamming_code (alpha beta : Nat) : Nat := count_ones (alpha ^^^ beta) / 2

end hamming

/-- A byte is a determined base when it is one of `A`, `C`, `T`, `G`. -/
def determined (c : Nat) : Bool := c == 65 || c == 67 || c == 84 || c == 71

/-- Number of aligned positions where both bytes are determined bases
and differ. -/
def mismatchCount (s t : List Nat) : Nat :=
  (s.zip t).countP fun p => determined p.1 && determined p.2 && p.1 != p.2

/-- Number of aligned positions where at least one byte is
undetermined. -/
def eitherUndetCount (s t : List Nat) : Nat :=
  (s.zip t).countP fun p => !(determined p.1 && determined p.2)

/-- Number of undetermined bytes in a sequence. -/
def undetCount (s : List Nat) : Nat := s.countP fun c => !determined c

/-- Value of a list of 3-bit groups, least-significant group first. -/
def word : List Nat → Nat
  | [] => 0
  | d :: ds => d + 8 * word ds

/-- All entries of a group list fit in 3 bits. -/
def Groups (l : List Nat) : Prop := ∀ d ∈ l, d < 8

/-! ### Bit-level groundwork -/

theorem testBit_mulAdd (a b k i : Nat) (hb : b < 2 ^ k) :
    (a * 2 ^ k + b).testBit i = if i < k then b.testBit i else a.testBit (i - k) := by
  rcases Nat.lt_or_ge i k with h | h
  · rw [if_pos h]
    have hk : (2 : Nat) ^ k = 2 ^ (k - i - 1) * 2 * 2 ^ i := by
      rw [mul_assoc, ← pow_succ']
      rw [← pow_add]
      congr 1
      omega
    have h2 : a * 2 ^ k + b = b + a * 2 ^ (k - i - 1) * 2 * 2 ^ i := by
      rw [hk]; ring
    rw [h2, Nat.testBit_to_div_mod, Nat.testBit_to_div_mod]
    rw [show b + a * 2 ^ (k - i - 1) * 2 * 2 ^ i = b + (a * 2 ^ (k - i - 1) * 2) * 2 ^ i by ring]
    rw [Nat.add_mul_div_right _ _ (Nat.two_pow_pos i)]
    rw [show b / 2 ^ i + a * 2 ^ (k - i - 1) * 2 = b / 2 ^ i + (a * 2 ^ (k - i - 1)) * 2 by ring]
    rw [Nat.add_mul_mod_self_right]
  · rw [if_neg (Nat.not_lt.mpr h)]
    have h2 : (a * 2 ^ k + b) / 2 ^ i = a / 2 ^ (i - k) := by
      have hik : (2 : Nat) ^ i = 2 ^ k * 2 ^ (i - k) := by
        rw [← pow_add]; congr 1; omega
      rw [hik, ← Nat.div_div_eq_div_mul]
      rw [show a * 2 ^ k + b = b + a * 2 ^ k by ring]
      rw [Nat.add_mul_div_right _ _ (Nat.two_pow_pos k), Nat.div_eq_of_lt hb, Nat.zero_add]
    rw [Nat.testBit_to_div_mod, Nat.testBit_to_div_mod, h2]

theorem land_mulAdd (a b c d k : Nat) (hb : b < 2 ^ k) (hd : d < 2 ^ k) :
    (a * 2 ^ k + b) &&& (c * 2 ^ k + d) = (a &&& c) * 2 ^ k + (b &&& d) := by
  apply Nat.eq_of_testBit_eq
  intro i
  rw [Nat.testBit_and, testBit_mulAdd a b k i hb, testBit_mulAdd c d k i hd,
    testBit_mulAdd _ _ k i (Nat.and_lt_two_pow b hd)]
  by_cases h : i < k <;> simp [h, Nat.testBit_and]

theorem xor_mulAdd (a b c d k : Nat) (hb : b < 2 ^ k) (hd : d < 2 ^ k) :
    (a * 2 ^ k + b) ^^^ (c * 2 ^ k + d) = (a ^^^ c) * 2 ^ k + (b ^^^ d) := by
  apply Nat.eq_of_testBit_eq
  intro i
  rw [Nat.testBit_xor, testBit_mulAdd a b k i hb, testBit_mulAdd c d k i hd,
    testBit_mulAdd _ _ k i (Nat.xor_lt_two_pow hb hd)]
  by_cases h : i < k <;> simp [h, Nat.testBit_xor]

theorem lor_mulAdd (a b c d k : Nat) (hb : b < 2 ^ k) (hd : d < 2 ^ k) :
    (a * 2 ^ k + b) ||| (c * 2 ^ k + d) = (a ||| c) * 2 ^ k + (b ||| d) := by
  apply Nat.eq_of_testBit_eq
  intro i
  rw [Nat.testBit_or, testBit_mulAdd a b k i hb, testBit_mulAdd c d k i hd,
    testBit_mulAdd _ _ k i (Nat.or_lt_two_pow hb hd)]
  by_cases h : i < k <;> simp [h, Nat.testBit_or]

theorem or_shift_add (a b k : Nat) (hb : b < 2 ^ k) :
    (a * 2 ^ k) ||| b = a * 2 ^ k + b := by
  have := lor_mulAdd a 0 0 b k (Nat.two_pow_pos k) hb
  simpa using this

theorem popCountWidth_zero (w : Nat) : popCountWidth w 0 = 0 := by
  induction w with
  | zero => rfl
  | succ w ih => simp [popCountWidth, ih]

theorem popCountWidth_split (w k a b : Nat) (hb : b < 2 ^ k) :
    popCountWidth (w + k) (a * 2 ^ k + b) = popCountWidth k b + popCountWidth w a := by
  induction k generalizing b with
  | zero =>
    have hb0 : b = 0 := by omega
    subst hb0
    simp [popCountWidth, popCountWidth_zero]
  | succ k ih =>
    have h8 : (2 : Nat) ^ (k + 1) = 2 ^ k * 2 := pow_succ 2 k
    have hx : a * 2 ^ (k + 1) + b = 2 * (a * 2 ^ k + b / 2) + b % 2 := by
      rw [h8, show a * (2 ^ k * 2) = a * 2 ^ k * 2 by ring]
      omega
    have hX2 : (a * 2 ^ (k + 1) + b) % 2 = b % 2 := by rw [hx]; omega
    have hXd : (a * 2 ^ (k + 1) + b) / 2 = a * 2 ^ k + b / 2 := by rw [hx]; omega
    have hb2 : b / 2 < 2 ^ k := by omega
    rw [show w + (k + 1) = (w + k) + 1 by omega]
    show (a * 2 ^ (k + 1) + b) % 2 + popCountWidth (w + k) ((a * 2 ^ (k + 1) + b) / 2) = _
    rw [hX2, hXd, ih (b / 2) hb2]
    show _ = b % 2 + popCountWidth k (b / 2) + popCountWidth w a
    omega

theorem popCountWidth_stable (w j n : Nat) (h : n < 2 ^ w) :
    popCountWidth (w + j) n = popCountWidth w n := by
  induction w generalizing n with
  | zero =>
    have hn : n = 0 := by simpa using Nat.lt_one_iff.mp (by simpa using h)
    subst hn
    simp [popCountWidth_zero]
  | succ w ih =>
    rw [Nat.succ_add]
    show n % 2 + popCountWidth (w + j) (n / 2) = n % 2 + popCountWidth w (n / 2)
    have h2 : n / 2 < 2 ^ w := by
      have := pow_succ 2 w
      omega
    rw [ih (n / 2) h2]

/-! ### Group-list words -/

theorem Groups.tail {d : Nat} {l : List Nat} (h : Groups (d :: l)) : Groups l :=
  fun x hx => h x (List.mem_cons_of_mem _ hx)

theorem Groups.head {d : Nat} {l : List Nat} (h : Groups (d :: l)) : d < 8 :=
  h d (List.mem_cons_self _ _)

theorem word_lt (l : List Nat) (h : Groups l) : word l < 2 ^ (3 * l.length) := by
  induction l with
  | nil => simp [word]
  | cons d ds ih =>
    have hd : d < 8 := h.head
    have hds := ih h.tail
    simp only [word, List.length_cons]
    have hp : (2 : Nat) ^ (3 * (ds.length + 1)) = 8 * 2 ^ (3 * ds.length) := by
      rw [show 3 * (ds.length + 1) = 3 + 3 * ds.length by ring, pow_add]
      norm_num
    omega

theorem word_append (l : List Nat) (d : Nat) :
    word (l ++ [d]) = word l + d * 2 ^ (3 * l.length) := by
  induction l with
  | nil => simp [word]
  | cons e es ih =>
    rw [List.cons_append]
    simp only [word, List.length_cons]
    rw [ih]
    have hp : (2 : Nat) ^ (3 * (es.length + 1)) = 2 ^ (3 * es.length) * 8 := by
      rw [show 3 * (es.length + 1) = 3 * es.length + 3 by ring, pow_add]
      norm_num
    rw [hp]; ring

theorem word_xor : ∀ (l m : List Nat), l.length = m.length → Groups l → Groups m →
    word l ^^^ word m = word (List.zipWith HXor.hXor l m)
  | [], [], _, _, _ => by simp [word]
  | d :: l, e :: m, h, hl, hm => by
    simp only [word, List.zipWith_cons_cons]
    rw [show d + 8 * word l = word l * 2 ^ 3 + d by ring,
      show e + 8 * word m = word m * 2 ^ 3 + e by ring,
      xor_mulAdd _ _ _ _ 3 (by simpa using hl.head) (by simpa using hm.head),
      word_xor l m (by simpa using h) hl.tail hm.tail]
    ring

theorem word_land : ∀ (l m : List Nat), l.length = m.length → Groups l → Groups m →
    word l &&& word m = word (List.zipWith HAnd.hAnd l m)
  | [], [], _, _, _ => by simp [word]
  | d :: l, e :: m, h, hl, hm => by
    simp only [word, List.zipWith_cons_cons]
    rw [show d + 8 * word l = word l * 2 ^ 3 + d by ring,
      show e + 8 * word m = word m * 2 ^ 3 + e by ring,
      land_mulAdd _ _ _ _ 3 (by simpa using hl.head) (by simpa using hm.head),
      word_land l m (by simpa using h) hl.tail hm.tail]
    ring

theorem word_popCount (l : List Nat) (h : Groups l) :
    popCountWidth (3 * l.length) (word l) = (l.map (popCountWidth 3)).sum := by
  induction l with
  | nil => simp [word, popCountWidth]
  | cons d ds ih =>
    simp only [word, List.map_cons, List.sum_cons, List.length_cons]
    rw [show 3 * (ds.length + 1) = 3 * ds.length + 3 by ring,
      show d + 8 * word ds = word ds * 2 ^ 3 + d by ring,
      popCountWidth_split _ 3 _ _ (by simpa using h.head), ih h.tail]

theorem word_replicate_seven (L : Nat) : word (List.replicate L 7) = 2 ^ (3 * L) - 1 := by
  induction L with
  | zero => simp [word]
  | succ n ih =>
    rw [List.replicate_succ]
    simp only [word, ih]
    have hp : (2 : Nat) ^ (3 * (n + 1)) = 8 * 2 ^ (3 * n) := by
      rw [show 3 * (n + 1) = 3 + 3 * n by ring, pow_add]
      norm_num
    have hpos : 0 < (2 : Nat) ^ (3 * n) := Nat.two_pow_pos _
    omega

theorem Groups.zipWith_land : ∀ {l m : List Nat}, Groups m →
    Groups (List.zipWith HAnd.hAnd l m)
  | [], _, _ => by intro d hd; simp at hd
  | _ :: _, [], _ => by intro d hd; simp at hd
  | a :: l, b :: m, hm => by
    intro d hd
    rw [List.zipWith_cons_cons, List.mem_cons] at hd
    rcases hd with rfl | hd
    · have hab : a &&& b < 2 ^ 3 := Nat.and_lt_two_pow a (by simpa using hm.head)
      simpa using hab
    · exact Groups.zipWith_land hm.tail d hd

theorem Groups.zipWith_xor : ∀ {l m : List Nat}, Groups l → Groups m →
    Groups (List.zipWith HXor.hXor l m)
  | [], _, _, _ => by intro d hd; simp at hd
  | _ :: _, [], _, _ => by intro d hd; simp at hd
  | a :: l, b :: m, hl, hm => by
    intro d hd
    rw [List.zipWith_cons_cons, List.mem_cons] at hd
    rcases hd with rfl | hd
    · have hab : a ^^^ b < 2 ^ 3 := Nat.xor_lt_two_pow (by simpa using hl.head) (by simpa using hm.head)
      simpa using hab
    · exact Groups.zipWith_xor hl.tail hm.tail d hd

theorem Groups.of_map_baseOf (s : List Nat) : Groups ((s.map baseOf).reverse) := by
  intro d hd
  simp only [List.mem_reverse, List.mem_map] at hd
  obtain ⟨c, _, rfl⟩ := hd
  unfold baseOf Bases.A Bases.C Bases.T Bases.G Bases.N UNDETERMINED
  split <;> try norm_num
  split <;> try norm_num
  split <;> try norm_num
  split <;> norm_num

theorem Groups.of_map_maskOf (s : List Nat) : Groups ((s.map maskOf).reverse) := by
  intro d hd
  simp only [List.mem_reverse, List.mem_map] at hd
  obtain ⟨c, _, rfl⟩ := hd
  unfold maskOf
  split <;> norm_num

/-! ### Characterizing the encoder -/

theorem baseOf_lt (c : Nat) : baseOf c < 2 ^ 3 := by
  unfold baseOf Bases.A Bases.C Bases.T Bases.G Bases.N UNDETERMINED
  repeat' split
  all_goals norm_num

theorem maskOf_lt (c : Nat) : maskOf c < 2 ^ 3 := by
  unfold maskOf
  split <;> norm_num

theorem encodeStep_eq (c m x : Nat) :
    encodeStep (c, m) x =
      (((c <<< ENCODING_LENGTH) % U64) ||| baseOf x,
        ((m <<< ENCODING_LENGTH) % U64) ||| maskOf x) := by
  simp only [encodeStep, maskOf]
  split <;> rfl

theorem shift3_mod (m : Nat) :
    (m <<< ENCODING_LENGTH) % U64 = m % 2 ^ 61 * 2 ^ 3 := by
  rw [Nat.shiftLeft_eq]
  unfold ENCODING_LENGTH U64
  rw [show (2 : Nat) ^ 64 = 2 ^ 61 * 2 ^ 3 by norm_num, Nat.mul_mod_mul_right]

theorem encode_fold : ∀ (seq : List Nat) (c m : Nat),
    c < 2 ^ (64 - 3 * seq.length) → 3 * seq.length ≤ 64 → m < U64 →
    seq.foldl encodeStep (c, m) =
      (c * 2 ^ (3 * seq.length) + word ((seq.map baseOf).reverse),
        (m * 2 ^ (3 * seq.length) + word ((seq.map maskOf).reverse)) % U64)
  | [], c, m, hc, _, hm => by
    simp [word, Nat.mod_eq_of_lt hm]
  | x :: rest, c, m, hc, hlen, hm => by
    have hL : 3 * rest.length + 3 ≤ 64 := by
      simp only [List.length_cons] at hlen; omega
    have hc61 : c < 2 ^ 61 := by
      refine lt_of_lt_of_le hc (Nat.pow_le_pow_right (by norm_num) ?_)
      simp only [List.length_cons]
      omega
    have hcs : (c <<< ENCODING_LENGTH) % U64 = c * 2 ^ 3 := by
      rw [Nat.shiftLeft_eq]
      unfold ENCODING_LENGTH U64
      apply Nat.mod_eq_of_lt
      have h1 : c * 2 ^ 3 < 2 ^ 61 * 2 ^ 3 := by
        have h3 : (0 : Nat) < 2 ^ 3 := by norm_num
        exact (Nat.mul_lt_mul_right h3).mpr hc61
      calc c * 2 ^ 3 < 2 ^ 61 * 2 ^ 3 := h1
        _ = 2 ^ 64 := by norm_num
    have hc' : c * 2 ^ 3 + baseOf x < 2 ^ (64 - 3 * rest.length) := by
      have h8 : (2 : Nat) ^ (64 - 3 * (x :: rest).length) * 2 ^ 3 =
          2 ^ (64 - 3 * rest.length) := by
        rw [← pow_add]
        congr 1
        simp only [List.length_cons]
        omega
      have hb := baseOf_lt x
      have hcc := hc
      have hpos : 0 < (2 : Nat) ^ (64 - 3 * (x :: rest).length) := Nat.two_pow_pos _
      nlinarith [hc, hb, h8]
    have hm' : m % 2 ^ 61 * 2 ^ 3 + maskOf x < U64 := by
      have h1 : m % 2 ^ 61 < 2 ^ 61 := Nat.mod_lt _ (by norm_num)
      have h2 := maskOf_lt x
      unfold U64
      nlinarith [h1, h2]
    rw [List.foldl_cons, encodeStep_eq, hcs, or_shift_add _ _ _ (baseOf_lt x),
      shift3_mod, or_shift_add _ _ _ (maskOf_lt x),
      encode_fold rest _ _ hc' (by omega) hm']
    have hrevlen_b : ((rest.map baseOf).reverse).length = rest.length := by simp
    have hrevlen_m : ((rest.map maskOf).reverse).length = rest.length := by simp
    have hfull_b : (((x :: rest).map baseOf).reverse) =
        (rest.map baseOf).reverse ++ [baseOf x] := by
      simp
    have hfull_m : (((x :: rest).map maskOf).reverse) =
        (rest.map maskOf).reverse ++ [maskOf x] := by
      simp
    have hpow : (2 : Nat) ^ (3 * (x :: rest).length) =
        2 ^ 3 * 2 ^ (3 * rest.length) := by
      rw [← pow_add]
      congr 1
      simp only [List.length_cons]
      ring
    refine Prod.ext ?_ ?_
    · show (c * 2 ^ 3 + baseOf x) * 2 ^ (3 * rest.length) +
          word ((rest.map baseOf).reverse) = _
      rw [hfull_b, word_append, hrevlen_b, hpow]
      ring
    · show ((m % 2 ^ 61 * 2 ^ 3 + maskOf x) * 2 ^ (3 * rest.length) +
          word ((rest.map maskOf).reverse)) % U64 = _
      rw [hfull_m, word_append, hrevlen_m, hpow]
      have base : m % 2 ^ 61 * 2 ^ 3 ≡ m * 2 ^ 3 [MOD 2 ^ 64] := by
        have h1 : m % 2 ^ 61 ≡ m [MOD 2 ^ 61] := Nat.mod_modEq m _
        have h2 := h1.mul_right' (c := 2 ^ 3)
        exact (show (2 : Nat) ^ 61 * 2 ^ 3 = 2 ^ 64 by norm_num) ▸ h2
      have hmod : (m % 2 ^ 61 * 2 ^ 3 + maskOf x) * 2 ^ (3 * rest.length) +
          word ((rest.map maskOf).reverse) ≡
          (m * 2 ^ 3 + maskOf x) * 2 ^ (3 * rest.length) +
          word ((rest.map maskOf).reverse) [MOD 2 ^ 64] :=
        ((base.add_right (maskOf x)).mul_right _).add_right _
      have heq : m * (2 ^ 3 * 2 ^ (3 * rest.length)) +
          (word ((rest.map maskOf).reverse) + maskOf x * 2 ^ (3 * rest.length)) =
          (m * 2 ^ 3 + maskOf x) * 2 ^ (3 * rest.length) +
          word ((rest.map maskOf).reverse) := by
        ring
      rw [heq]
      exact (show U64 = 2 ^ 64 from rfl) ▸ hmod

theorem MAX_BASES_eq : MAX_BASES = 21 := rfl

theorem new_spec (seq : List Nat) (h : seq.length ≤ MAX_BASES) :
    BaseBits.new seq = Except.ok
      { code := word ((seq.map baseOf).reverse),
        nbits := U64 - 2 ^ (3 * seq.length) + word ((seq.map maskOf).reverse),
        len := seq.length } := by
  have h21 : seq.length ≤ 21 := by rw [← MAX_BASES_eq]; exact h
  have hlen3 : 3 * seq.length ≤ 64 := by omega
  have hwm : word ((seq.map maskOf).reverse) < 2 ^ (3 * seq.length) := by
    have hw := word_lt _ (Groups.of_map_maskOf seq)
    simpa using hw
  have hPle : (2 : Nat) ^ (3 * seq.length) ≤ 2 ^ 64 :=
    Nat.pow_le_pow_right (by norm_num) hlen3
  have hMV : MAX_VAL < U64 := by unfold MAX_VAL U64; omega
  unfold BaseBits.new
  rw [if_neg (by rw [MAX_BASES_eq]; omega)]
  simp only [encode_fold seq 0 MAX_VAL (Nat.two_pow_pos _) hlen3 hMV]
  have hnb : (MAX_VAL * 2 ^ (3 * seq.length) + word ((seq.map maskOf).reverse)) % U64 =
      U64 - 2 ^ (3 * seq.length) + word ((seq.map maskOf).reverse) := by
    unfold MAX_VAL U64
    omega
  simp only [Nat.zero_mul, Nat.zero_add, hnb]

theorem new_ok_length {s : List Nat} {a : BaseBits} (h : BaseBits.new s = Except.ok a) :
    s.length ≤ MAX_BASES := by
  by_contra hgt
  unfold BaseBits.new at h
  rw [if_pos (by omega)] at h
  exact absurd h (by simp)

theorem new_ok_eq {s : List Nat} {a : BaseBits} (h : BaseBits.new s = Except.ok a) :
    a = { code := word ((s.map baseOf).reverse),
          nbits := U64 - 2 ^ (3 * s.length) + word ((s.map maskOf).reverse),
          len := s.length } := by
  have hs := new_spec s (new_ok_length h)
  rw [h] at hs
  exact Except.ok.inj hs

/-! ### Pointwise byte lemmas -/

theorem determined_cases (c : Nat) (h : determined c = true) :
    c = 65 ∨ c = 67 ∨ c = 84 ∨ c = 71 := by
  unfold determined at h
  simp only [Bool.or_eq_true, beq_iff_eq] at h
  tauto

theorem baseOf_of_not_determined {c : Nat} (h : ¬ determined c = true) :
    baseOf c = Bases.N := by
  unfold determined at h
  simp only [Bool.or_eq_true, beq_iff_eq, not_or] at h
  obtain ⟨⟨⟨h1, h2⟩, h3⟩, h4⟩ := h
  unfold baseOf
  rw [if_neg h1, if_neg h2, if_neg h3, if_neg h4]

theorem maskOf_of_determined {c : Nat} (h : determined c = true) : maskOf c = 7 := by
  rcases determined_cases c h with rfl | rfl | rfl | rfl <;> rfl

theorem maskOf_of_not_determined {c : Nat} (h : ¬ determined c = true) :
    maskOf c = 0 := by
  unfold maskOf
  rw [baseOf_of_not_determined h, if_pos rfl]

theorem pc3_point (x y : Nat) :
    popCountWidth 3 ((baseOf x ^^^ baseOf y) &&& (maskOf x &&& maskOf y)) =
      if determined x && determined y && x != y then 2 else 0 := by
  by_cases dx : determined x = true
  · by_cases dy : determined y = true
    · rcases determined_cases x dx with rfl | rfl | rfl | rfl <;>
        rcases determined_cases y dy with rfl | rfl | rfl | rfl <;> decide
    · rw [maskOf_of_not_determined dy, Nat.and_zero, Nat.and_zero, popCountWidth_zero]
      simp [dy]
  · rw [maskOf_of_not_determined dx, Nat.zero_and, Nat.and_zero, popCountWidth_zero]
    simp [dx]

theorem pc3_penalty (x y : Nat) :
    popCountWidth 3 ((maskOf x &&& maskOf y) ^^^ 7) =
      if determined x && determined y then 0 else 3 := by
  by_cases dx : determined x = true
  · by_cases dy : determined y = true
    · rw [maskOf_of_determined dx, maskOf_of_determined dy]
      simp [dx, dy]
      decide
    · rw [maskOf_of_not_determined dy, Nat.and_zero]
      simp [dy]
      decide
  · rw [maskOf_of_not_determined dx, Nat.zero_and]
    simp [dx]
    decide

/-! ### Summing group contributions -/

theorem sum_point : ∀ (s t : List Nat), s.length = t.length →
    ((List.zipWith HAnd.hAnd
        (List.zipWith HXor.hXor (s.map baseOf) (t.map baseOf))
        (List.zipWith HAnd.hAnd (s.map maskOf) (t.map maskOf))).map
      (popCountWidth 3)).sum = 2 * mismatchCount s t
  | [], [], _ => by simp [mismatchCount]
  | x :: s, y :: t, h => by
    simp only [List.map_cons, List.zipWith_cons_cons, List.sum_cons]
    rw [sum_point s t (by simpa using h), pc3_point]
    unfold mismatchCount
    rw [List.zip_cons_cons, List.countP_cons]
    by_cases hp : (determined x && determined y && x != y) = true <;>
      simp only [hp, if_true, if_false, Bool.false_eq_true] <;> omega

theorem sum_penalty : ∀ (s t : List Nat), s.length = t.length →
    ((List.zipWith HXor.hXor
        (List.zipWith HAnd.hAnd (s.map maskOf) (t.map maskOf))
        (List.replicate s.length 7)).map (popCountWidth 3)).sum
      = 3 * eitherUndetCount s t
  | [], [], _ => by simp [eitherUndetCount]
  | x :: s, y :: t, h => by
    simp only [List.map_cons, List.zipWith_cons_cons, List.sum_cons,
      List.length_cons, List.replicate_succ]
    rw [sum_penalty s t (by simpa using h), pc3_penalty]
    unfold eitherUndetCount
    rw [List.zip_cons_cons, List.countP_cons]
    by_cases hp : (determined x && determined y) = true <;>
      simp only [hp, Bool.not_true, Bool.not_false, if_true, if_false,
        Bool.false_eq_true, Bool.true_eq_false] <;> omega

/-! ### Distance characterization -/

theorem nbits_and_eq (s t : List Nat) (hlen : s.length = t.length) (h21 : s.length ≤ 21) :
    (U64 - 2 ^ (3 * s.length) + word ((s.map maskOf).reverse)) &&&
      (U64 - 2 ^ (3 * t.length) + word ((t.map maskOf).reverse)) =
    (2 ^ (64 - 3 * s.length) - 1) * 2 ^ (3 * s.length) +
      word (List.zipWith HAnd.hAnd ((s.map maskOf).reverse) ((t.map maskOf).reverse)) := by
  have hL3 : 3 * s.length ≤ 64 := by omega
  have hhi : U64 - 2 ^ (3 * s.length) =
      (2 ^ (64 - 3 * s.length) - 1) * 2 ^ (3 * s.length) := by
    have hm : (2 : Nat) ^ (64 - 3 * s.length) * 2 ^ (3 * s.length) = 2 ^ 64 := by
      rw [← pow_add]; congr 1; omega
    unfold U64
    rw [Nat.sub_mul, one_mul, hm]
  have hws : word ((s.map maskOf).reverse) < 2 ^ (3 * s.length) := by
    have hw := word_lt _ (Groups.of_map_maskOf s)
    simpa using hw
  have hwt : word ((t.map maskOf).reverse) < 2 ^ (3 * s.length) := by
    have hw := word_lt _ (Groups.of_map_maskOf t)
    rw [hlen]
    simpa using hw
  rw [← hlen, hhi, land_mulAdd _ _ _ _ _ hws hwt, Nat.and_self,
    word_land _ _ (by simp [hlen]) (Groups.of_map_maskOf s) (Groups.of_map_maskOf t)]

theorem masked_eq (s t : List Nat) (hlen : s.length = t.length) (h21 : s.length ≤ 21) :
    (word ((s.map baseOf).reverse) ^^^ word ((t.map baseOf).reverse)) &&&
      ((U64 - 2 ^ (3 * s.length) + word ((s.map maskOf).reverse)) &&&
        (U64 - 2 ^ (3 * t.length) + word ((t.map maskOf).reverse))) =
    word (List.zipWith HAnd.hAnd
      (List.zipWith HXor.hXor ((s.map baseOf).reverse) ((t.map baseOf).reverse))
      (List.zipWith HAnd.hAnd ((s.map maskOf).reverse) ((t.map maskOf).reverse))) := by
  rw [nbits_and_eq s t hlen h21,
    word_xor _ _ (by simp [hlen]) (Groups.of_map_baseOf s) (Groups.of_map_baseOf t)]
  have hXg : Groups (List.zipWith HXor.hXor ((s.map baseOf).reverse)
      ((t.map baseOf).reverse)) :=
    Groups.zipWith_xor (Groups.of_map_baseOf s) (Groups.of_map_baseOf t)
  have hAg : Groups (List.zipWith HAnd.hAnd ((s.map maskOf).reverse)
      ((t.map maskOf).reverse)) :=
    Groups.zipWith_land (Groups.of_map_maskOf t)
  have hXlt : word (List.zipWith HXor.hXor ((s.map baseOf).reverse)
      ((t.map baseOf).reverse)) < 2 ^ (3 * s.length) := by
    have hw := word_lt _ hXg
    have hl : (List.zipWith HXor.hXor ((s.map baseOf).reverse)
        ((t.map baseOf).reverse)).length = s.length := by
      simp [hlen]
    rwa [hl] at hw
  have hAlt : word (List.zipWith HAnd.hAnd ((s.map maskOf).reverse)
      ((t.map maskOf).reverse)) < 2 ^ (3 * s.length) := by
    have hw := word_lt _ hAg
    have hl : (List.zipWith HAnd.hAnd ((s.map maskOf).reverse)
        ((t.map maskOf).reverse)).length = s.length := by
      simp [hlen]
    rwa [hl] at hw
  calc word (List.zipWith HXor.hXor ((s.map baseOf).reverse) ((t.map baseOf).reverse)) &&&
        ((2 ^ (64 - 3 * s.length) - 1) * 2 ^ (3 * s.length) +
          word (List.zipWith HAnd.hAnd ((s.map maskOf).reverse) ((t.map maskOf).reverse)))
      = (0 * 2 ^ (3 * s.length) +
          word (List.zipWith HXor.hXor ((s.map baseOf).reverse) ((t.map baseOf).reverse))) &&&
        ((2 ^ (64 - 3 * s.length) - 1) * 2 ^ (3 * s.length) +
          word (List.zipWith HAnd.hAnd ((s.map maskOf).reverse) ((t.map maskOf).reverse))) := by
        rw [Nat.zero_mul, Nat.zero_add]
    _ = (0 &&& (2 ^ (64 - 3 * s.length) - 1)) * 2 ^ (3 * s.length) +
        (word (List.zipWith HXor.hXor ((s.map baseOf).reverse) ((t.map baseOf).reverse)) &&&
          word (List.zipWith HAnd.hAnd ((s.map maskOf).reverse) ((t.map maskOf).reverse))) :=
        land_mulAdd _ _ _ _ _ hXlt hAlt
    _ = _ := by
        rw [Nat.zero_and, Nat.zero_mul, Nat.zero_add,
          word_land _ _ (by simp [hlen]) hXg hAg]

theorem masked_count (s t : List Nat) (hlen : s.length = t.length) (h21 : s.length ≤ 21) :
    count_ones ((word ((s.map baseOf).reverse) ^^^ word ((t.map baseOf).reverse)) &&&
      ((U64 - 2 ^ (3 * s.length) + word ((s.map maskOf).reverse)) &&&
        (U64 - 2 ^ (3 * t.length) + word ((t.map maskOf).reverse)))) =
    2 * mismatchCount s t := by
  rw [masked_eq s t hlen h21]
  have hAg : Groups (List.zipWith HAnd.hAnd ((s.map maskOf).reverse)
      ((t.map maskOf).reverse)) :=
    Groups.zipWith_land (Groups.of_map_maskOf t)
  have hGg : Groups (List.zipWith HAnd.hAnd
      (List.zipWith HXor.hXor ((s.map baseOf).reverse) ((t.map baseOf).reverse))
      (List.zipWith HAnd.hAnd ((s.map maskOf).reverse) ((t.map maskOf).reverse))) :=
    Groups.zipWith_land hAg
  have hglen : (List.zipWith HAnd.hAnd
      (List.zipWith HXor.hXor ((s.map baseOf).reverse) ((t.map baseOf).reverse))
      (List.zipWith HAnd.hAnd ((s.map maskOf).reverse) ((t.map maskOf).reverse))).length
      = s.length := by
    simp [hlen]
  have hGlt : word (List.zipWith HAnd.hAnd
      (List.zipWith HXor.hXor ((s.map baseOf).reverse) ((t.map baseOf).reverse))
      (List.zipWith HAnd.hAnd ((s.map maskOf).reverse) ((t.map maskOf).reverse))) <
      2 ^ (3 * s.length) := by
    have hw := word_lt _ hGg
    rwa [hglen] at hw
  unfold count_ones CONTAINER_WIDTH
  rw [show (64 : Nat) = 3 * s.length + (64 - 3 * s.length) by omega,
    popCountWidth_stable _ _ _ hGlt, ← hglen, word_popCount _ hGg]
  rw [(List.reverse_zipWith (f := HXor.hXor) (by simp [hlen] :
      (s.map baseOf).length = (t.map baseOf).length)).symm]
  rw [(List.reverse_zipWith (f := HAnd.hAnd) (by simp [hlen] :
      (s.map maskOf).length = (t.map maskOf).length)).symm]
  rw [(List.reverse_zipWith (f := HAnd.hAnd) (by simp [hlen] :
      (List.zipWith HXor.hXor (s.map baseOf) (t.map baseOf)).length =
        (List.zipWith HAnd.hAnd (s.map maskOf) (t.map maskOf)).length)).symm]
  rw [List.map_reverse, List.sum_reverse]
  exact sum_point s t hlen

theorem penalty_count (s t : List Nat) (hlen : s.length = t.length) (h21 : s.length ≤ 21) :
    count_ones (u64not ((U64 - 2 ^ (3 * s.length) + word ((s.map maskOf).reverse)) &&&
      (U64 - 2 ^ (3 * t.length) + word ((t.map maskOf).reverse)))) =
    3 * eitherUndetCount s t := by
  have hL3 : 3 * s.length ≤ 64 := by omega
  have hm : (2 : Nat) ^ (64 - 3 * s.length) * 2 ^ (3 * s.length) = 2 ^ 64 := by
    rw [← pow_add]; congr 1; omega
  have hPle : (2 : Nat) ^ (3 * s.length) ≤ 2 ^ 64 :=
    Nat.pow_le_pow_right (by norm_num) hL3
  have hP1 : 1 ≤ (2 : Nat) ^ (3 * s.length) := Nat.one_le_two_pow
  rw [nbits_and_eq s t hlen h21]
  unfold u64not MAX_VAL
  have hsplit : (2 : Nat) ^ 64 - 1 =
      (2 ^ (64 - 3 * s.length) - 1) * 2 ^ (3 * s.length) +
        word (List.replicate s.length 7) := by
    rw [word_replicate_seven, Nat.sub_mul, one_mul, hm]
    omega
  rw [hsplit]
  have hAg : Groups (List.zipWith HAnd.hAnd ((s.map maskOf).reverse)
      ((t.map maskOf).reverse)) :=
    Groups.zipWith_land (Groups.of_map_maskOf t)
  have hAlen : (List.zipWith HAnd.hAnd ((s.map maskOf).reverse)
      ((t.map maskOf).reverse)).length = s.length := by
    simp [hlen]
  have hAlt : word (List.zipWith HAnd.hAnd ((s.map maskOf).reverse)
      ((t.map maskOf).reverse)) < 2 ^ (3 * s.length) := by
    have hw := word_lt _ hAg
    rwa [hAlen] at hw
  have hRg : Groups (List.replicate s.length 7) := by
    intro d hd
    rw [List.eq_of_mem_replicate hd]
    norm_num
  have hRlt : word (List.replicate s.length 7) < 2 ^ (3 * s.length) := by
    have hw := word_lt _ hRg
    simpa using hw
  rw [xor_mulAdd _ _ _ _ _ hAlt hRlt, Nat.xor_self, Nat.zero_mul, Nat.zero_add,
    word_xor _ _ (by simp [hlen]) hAg hRg]
  have hGg : Groups (List.zipWith HXor.hXor
      (List.zipWith HAnd.hAnd ((s.map maskOf).reverse) ((t.map maskOf).reverse))
      (List.replicate s.length 7)) :=
    Groups.zipWith_xor hAg hRg
  have hglen : (List.zipWith HXor.hXor
      (List.zipWith HAnd.hAnd ((s.map maskOf).reverse) ((t.map maskOf).reverse))
      (List.replicate s.length 7)).length = s.length := by
    simp [hlen]
  have hGlt : word (List.zipWith HXor.hXor
      (List.zipWith HAnd.hAnd ((s.map maskOf).reverse) ((t.map maskOf).reverse))
      (List.replicate s.length 7)) < 2 ^ (3 * s.length) := by
    have hw := word_lt _ hGg
    rwa [hglen] at hw
  unfold count_ones CONTAINER_WIDTH
  have hpc := word_popCount _ hGg
  rw [hglen] at hpc
  rw [show (64 : Nat) = 3 * s.length + (64 - 3 * s.length) by omega,
    popCountWidth_stable _ _ _ hGlt, hpc]
  rw [(List.reverse_zipWith (f := HAnd.hAnd) (by simp [hlen] :
      (s.map maskOf).length = (t.map maskOf).length)).symm]
  rw [show List.replicate s.length 7 = (List.replicate s.length 7).reverse from
    (List.reverse_replicate ..).symm]
  rw [(List.reverse_zipWith (f := HXor.hXor) (by simp [hlen] :
      (List.zipWith HAnd.hAnd (s.map maskOf) (t.map maskOf)).length =
        (List.replicate s.length 7).length)).symm]
  rw [List.map_reverse, List.sum_reverse]
  exact sum_penalty s t hlen

theorem new_code {s : List Nat} {a : BaseBits} (h : BaseBits.new s = Except.ok a) :
    a.code = word ((s.map baseOf).reverse) := by
  rw [new_ok_eq h]

theorem new_nbits {s : List Nat} {a : BaseBits} (h : BaseBits.new s = Except.ok a) :
    a.nbits = U64 - 2 ^ (3 * s.length) + word ((s.map maskOf).reverse) := by
  rw [new_ok_eq h]

theorem new_len {s : List Nat} {a : BaseBits} (h : BaseBits.new s = Except.ok a) :
    a.len = s.length := by
  rw [new_ok_eq h]

theorem nany_eq {s t : List Nat} {a b : BaseBits}
    (ha : BaseBits.new s = Except.ok a) (hb : BaseBits.new t = Except.ok b)
    (hlen : s.length = t.length) :
    hamming_dist_nany a b = mismatchCount s t := by
  have h21 : s.length ≤ 21 := by
    have hle := new_ok_length ha
    rwa [MAX_BASES_eq] at hle
  unfold hamming_dist_nany
  rw [new_code ha, new_code hb, new_nbits ha, new_nbits hb,
    masked_count s t hlen h21]
  unfold ENCODING_DIST
  omega

theorem none_eq {s t : List Nat} {a b : BaseBits}
    (ha : BaseBits.new s = Except.ok a) (hb : BaseBits.new t = Except.ok b)
    (hlen : s.length = t.length) :
    hamming_dist_none a b = mismatchCount s t + eitherUndetCount s t := by
  have h21 : s.length ≤ 21 := by
    have hle := new_ok_length ha
    rwa [MAX_BASES_eq] at hle
  unfold hamming_dist_none
  rw [new_code ha, new_code hb, new_nbits ha, new_nbits hb,
    masked_count s t hlen h21, penalty_count s t hlen h21]
  unfold ENCODING_DIST ENCODING_LENGTH
  omega

/-! ### Decoding -/

theorem extract_bits_three (n : Nat) : extract_bits n ENCODING_LENGTH = n % 8 := by
  unfold extract_bits u64not ENCODING_LENGTH U64 MAX_VAL
  rw [show ((((0 : Nat) ^^^ (2 ^ 64 - 1)) <<< 3) % 2 ^ 64) ^^^ (2 ^ 64 - 1) = 2 ^ 3 - 1 by
    decide]
  rw [Nat.and_comm, Nat.and_pow_two_sub_one_eq_mod]

theorem decodeLoop_word : ∀ (l : List Nat), Groups l →
    decodeLoop l.length (word l) = l.map decodeChar
  | [], _ => by simp [decodeLoop]
  | d :: l, h => by
    simp only [List.length_cons, List.map_cons]
    show decodeChar (extract_bits (word (d :: l)) ENCODING_LENGTH) ::
        decodeLoop l.length (word (d :: l) >>> ENCODING_LENGTH) =
      decodeChar d :: l.map decodeChar
    have hd8 : d < 8 := h.head
    have h1 : word (d :: l) % 8 = d := by
      show (d + 8 * word l) % 8 = d
      omega
    have h2 : word (d :: l) >>> ENCODING_LENGTH = word l := by
      unfold ENCODING_LENGTH
      rw [Nat.shiftRight_eq_div_pow]
      show (d + 8 * word l) / 2 ^ 3 = word l
      omega
    rw [extract_bits_three, h1, h2, decodeLoop_word l h.tail]

theorem decodeChar_baseOf (c : Nat) :
    decodeChar (baseOf c) = if determined c then c else 78 := by
  by_cases dc : determined c = true
  · rcases determined_cases c dc with rfl | rfl | rfl | rfl <;> decide
  · have dcf : determined c = false := by simpa using dc
    rw [baseOf_of_not_determined dc, dcf]
    simp only [Bool.false_eq_true, if_false]
    decide

theorem decode_new {s : List Nat} {a : BaseBits} (ha : BaseBits.new s = Except.ok a) :
    a.decode = s.map fun c => decodeChar (baseOf c) := by
  unfold BaseBits.decode
  rw [new_len ha, new_code ha]
  have hg := Groups.of_map_baseOf s
  have hlenr : ((s.map baseOf).reverse).length = s.length := by simp
  have hd := decodeLoop_word _ hg
  rw [hlenr] at hd
  rw [hd, List.map_reverse, List.reverse_reverse, List.map_map]
  rfl

/-! ### Group extraction from the known mask -/

theorem two_pow_sub_one_div (a b : Nat) (h : b ≤ a) :
    (2 ^ a - 1) / 2 ^ b = 2 ^ (a - b) - 1 := by
  have hm : (2 : Nat) ^ (a - b) * 2 ^ b = 2 ^ a := by
    rw [← pow_add]; congr 1; omega
  have h1 : 1 ≤ (2 : Nat) ^ b := Nat.one_le_two_pow
  have h2 : 1 ≤ (2 : Nat) ^ (a - b) := Nat.one_le_two_pow
  have hle : (2 : Nat) ^ b ≤ 2 ^ a := Nat.pow_le_pow_right (by norm_num) h
  have hsplit : (2 : Nat) ^ a - 1 = (2 ^ b - 1) + (2 ^ (a - b) - 1) * 2 ^ b := by
    rw [Nat.sub_mul, one_mul, hm]
    omega
  rw [hsplit, Nat.add_mul_div_right _ _ (Nat.two_pow_pos b),
    Nat.div_eq_of_lt (by omega : (2 : Nat) ^ b - 1 < 2 ^ b), Nat.zero_add]

theorem two_pow_sub_one_mod_eight (m : Nat) (h : 3 ≤ m) : (2 ^ m - 1) % 8 = 7 := by
  have hm : (2 : Nat) ^ m = 2 ^ (m - 3) * 8 := by
    rw [show (8 : Nat) = 2 ^ 3 by norm_num, ← pow_add]; congr 1; omega
  have h1 : 1 ≤ (2 : Nat) ^ (m - 3) := Nat.one_le_two_pow
  omega

theorem word_mod_eight (l : List Nat) (h : Groups l) : word l % 8 = l.headD 0 := by
  cases l with
  | nil => rfl
  | cons d l =>
    show (d + 8 * word l) % 8 = d
    have := h.head
    omega

theorem word_div_pow : ∀ (i : Nat) (l : List Nat), Groups l →
    word l / 2 ^ (3 * i) = word (l.drop i)
  | 0, l, _ => by simp
  | i + 1, [], _ => by simp [word]
  | i + 1, d :: l, h => by
    have h1 : word (d :: l) / 8 = word l := by
      show (d + 8 * word l) / 8 = word l
      have := h.head
      omega
    have h2 : (2 : Nat) ^ (3 * (i + 1)) = 8 * 2 ^ (3 * i) := by
      rw [show 3 * (i + 1) = 3 + 3 * i by ring, pow_add]; norm_num
    rw [h2, ← Nat.div_div_eq_div_mul, h1, word_div_pow i l h.tail, List.drop_succ_cons]

theorem headD_drop : ∀ (i : Nat) (l : List Nat), (l.drop i).headD 0 = l.getD i 0
  | 0, [] => rfl
  | 0, _ :: _ => rfl
  | _ + 1, [] => rfl
  | i + 1, _ :: l => headD_drop i l

theorem nbits_group (s : List Nat) (h21 : s.length ≤ 21) (i : Nat) (hi : i < 21) :
    ((U64 - 2 ^ (3 * s.length) + word ((s.map maskOf).reverse)) >>> (3 * i)) % 8 =
      if i < s.length then ((s.map maskOf).reverse).getD i 0 else 7 := by
  have hg := Groups.of_map_maskOf s
  have hlenr : ((s.map maskOf).reverse).length = s.length := by simp
  have hw : word ((s.map maskOf).reverse) < 2 ^ (3 * s.length) := by
    have hwl := word_lt _ hg
    rwa [hlenr] at hwl
  have hhi : U64 - 2 ^ (3 * s.length) =
      (2 ^ (64 - 3 * s.length) - 1) * 2 ^ (3 * s.length) := by
    have hm : (2 : Nat) ^ (64 - 3 * s.length) * 2 ^ (3 * s.length) = 2 ^ 64 := by
      rw [← pow_add]; congr 1; omega
    unfold U64
    rw [Nat.sub_mul, one_mul, hm]
  rw [Nat.shiftRight_eq_div_pow, hhi]
  rcases Nat.lt_or_ge i s.length with hil | hil
  · rw [if_pos hil]
    have e1 : (2 : Nat) ^ (3 * s.length) =
        2 ^ (3 * (s.length - i) - 3) * 8 * 2 ^ (3 * i) := by
      rw [show (8 : Nat) = 2 ^ 3 by norm_num, ← pow_add, ← pow_add]
      congr 1
      omega
    rw [e1]
    rw [show (2 ^ (64 - 3 * s.length) - 1) *
        (2 ^ (3 * (s.length - i) - 3) * 8 * 2 ^ (3 * i)) +
        word ((s.map maskOf).reverse) =
        word ((s.map maskOf).reverse) +
        ((2 ^ (64 - 3 * s.length) - 1) * 2 ^ (3 * (s.length - i) - 3)) * 8 * 2 ^ (3 * i)
      by ring]
    rw [Nat.add_mul_div_right _ _ (Nat.two_pow_pos (3 * i)), word_div_pow i _ hg,
      Nat.add_mul_mod_self_right,
      word_mod_eight _ (fun d hd => hg d (List.mem_of_mem_drop hd)), headD_drop]
  · rw [if_neg (by omega)]
    have e2 : (2 : Nat) ^ (3 * i) = 2 ^ (3 * s.length) * 2 ^ (3 * (i - s.length)) := by
      rw [← pow_add]; congr 1; omega
    rw [e2, ← Nat.div_div_eq_div_mul]
    rw [show (2 ^ (64 - 3 * s.length) - 1) * 2 ^ (3 * s.length) +
        word ((s.map maskOf).reverse) =
        word ((s.map maskOf).reverse) +
        (2 ^ (64 - 3 * s.length) - 1) * 2 ^ (3 * s.length) by ring]
    rw [Nat.add_mul_div_right _ _ (Nat.two_pow_pos (3 * s.length)),
      Nat.div_eq_of_lt hw, Nat.zero_add,
      two_pow_sub_one_div _ _ (by omega : 3 * (i - s.length) ≤ 64 - 3 * s.length)]
    exact two_pow_sub_one_mod_eight _ (by omega)

/-! ### Miscellaneous list facts -/

theorem getD_of_lt (l : List Nat) (i : Nat) (h : i < l.length) : l.getD i 0 = l[i] := by
  rw [List.getD_eq_getElem?_getD, List.getElem?_eq_getElem h]
  rfl

theorem getD_reverse (l : List Nat) (i : Nat) (h : i < l.length) :
    l.reverse.getD i 0 = l.getD (l.length - 1 - i) 0 := by
  rw [getD_of_lt _ _ (by simpa using h), getD_of_lt _ _ (by omega),
    List.getElem_reverse]

theorem getD_map_maskOf (s : List Nat) (j : Nat) (h : j < s.length) :
    (s.map maskOf).getD j 0 = maskOf (s.getD j 0) := by
  rw [getD_of_lt _ _ (by simpa using h), getD_of_lt _ _ h, List.getElem_map]

theorem zip_self (s : List Nat) : s.zip s = s.map fun x => (x, x) := by
  induction s with
  | nil => rfl
  | cons x s ih => simp [ih]

theorem mismatch_self (s : List Nat) : mismatchCount s s = 0 := by
  unfold mismatchCount
  rw [zip_self, List.countP_map]
  have hz : ∀ x : Nat,
      ((fun p : Nat × Nat => determined p.1 && determined p.2 && p.1 != p.2) ∘
        fun x => (x, x)) x = false := by
    intro x
    simp [Function.comp]
  rw [List.countP_eq_zero]
  intro x _
  rw [hz x]
  simp

theorem eitherUndet_self (s : List Nat) : eitherUndetCount s s = undetCount s := by
  unfold eitherUndetCount undetCount
  rw [zip_self, List.countP_map]
  apply List.countP_congr
  intro x _
  simp [Function.comp]

theorem mismatchCount_le (s t : List Nat) : mismatchCount s t ≤ s.length := by
  unfold mismatchCount
  calc (s.zip t).countP _ ≤ (s.zip t).length := List.countP_le_length _
    _ ≤ s.length := by
      rw [List.length_zip]
      omega

theorem nbits_all_determined {s : List Nat} (h21 : s.length ≤ 21)
    (hs : ∀ c ∈ s, determined c = true) :
    U64 - 2 ^ (3 * s.length) + word ((s.map maskOf).reverse) = MAX_VAL := by
  have hmask : (s.map maskOf).reverse = List.replicate s.length 7 := by
    rw [List.eq_replicate_iff]
    constructor
    · simp
    · intro b hbm
      rw [List.mem_reverse, List.mem_map] at hbm
      obtain ⟨c, hc, rfl⟩ := hbm
      exact maskOf_of_determined (hs c hc)
  rw [hmask, word_replicate_seven]
  have h1 : 1 ≤ (2 : Nat) ^ (3 * s.length) := Nat.one_le_two_pow
  have hPle : (2 : Nat) ^ (3 * s.length) ≤ 2 ^ 64 :=
    Nat.pow_le_pow_right (by norm_num) (by omega)
  unfold U64 MAX_VAL
  omega

/-! ### Claims -/

/-- C1: for every byte sequence `s` with `length s ≤ 21`, encoding succeeds
and decoding returns `s` with every non-`A`/`C`/`G`/`T` byte (including a
literal `N` = 78) replaced by `N`; for purely determined input the round
trip is the identity. -/
theorem C1_round_trip (s : List Nat) (h : s.length ≤ MAX_BASES) :
    ∃ b : BaseBits, BaseBits.new s = Except.ok b ∧
      b.decode = s.map (fun c => if determined c then c else 78) ∧
      ((∀ c ∈ s, determined c = true) → b.decode = s) := by
  refine ⟨_, new_spec s h, ?_, ?_⟩
  · rw [decode_new (new_spec s h)]
    exact List.map_congr_left fun c _ => decodeChar_baseOf c
  · intro hall
    rw [decode_new (new_spec s h)]
    have hid : ∀ c ∈ s, decodeChar (baseOf c) = c := by
      intro c hc
      rw [decodeChar_baseOf]
      simp [hall c hc]
    calc s.map (fun c => decodeChar (baseOf c)) = s.map id := List.map_congr_left hid
      _ = s := List.map_id s

/-- Witness for C1 at the concrete input `"ANG9"`. -/
theorem C1_round_trip_witness :
    ([65, 78, 71, 57] : List Nat).length ≤ MAX_BASES ∧
      (∃ b : BaseBits, BaseBits.new [65, 78, 71, 57] = Except.ok b ∧
        b.decode = [65, 78, 71, 57].map (fun c => if determined c then c else 78) ∧
        ((∀ c ∈ ([65, 78, 71, 57] : List Nat), determined c = true) →
          b.decode = ([65, 78, 71, 57] : List Nat))) :=
  ⟨by decide, C1_round_trip [65, 78, 71, 57] (by decide)⟩

/-- C2: for validly constructed values of equal length, the wildcard
distance counts exactly the positions where both bytes are determined
bases and differ. -/
theorem C2_wildcard_joker (s t : List Nat) (a b : BaseBits)
    (ha : BaseBits.new s = Except.ok a) (hb : BaseBits.new t = Except.ok b)
    (hl : a.len = b.len) :
    hamming_dist_nany a b = mismatchCount s t := by
  have hlen : s.length = t.length := by
    rw [← new_len ha, ← new_len hb, hl]
  exact nany_eq ha hb hlen

/-- Witness for C2 at `"ACNT"` versus `"GCAA"`. -/
theorem C2_wildcard_joker_witness :
    BaseBits.new [65, 67, 78, 84] = Except.ok (⟨421, 2 ^ 64 - 57, 4⟩ : BaseBits) ∧
    BaseBits.new [71, 67, 65, 65] = Except.ok (⟨1920, 2 ^ 64 - 1, 4⟩ : BaseBits) ∧
    (⟨421, 2 ^ 64 - 57, 4⟩ : BaseBits).len = (⟨1920, 2 ^ 64 - 1, 4⟩ : BaseBits).len ∧
    hamming_dist_nany ⟨421, 2 ^ 64 - 57, 4⟩ ⟨1920, 2 ^ 64 - 1, 4⟩ =
      mismatchCount [65, 67, 78, 84] [71, 67, 65, 65] :=
  ⟨rfl, rfl, rfl, C2_wildcard_joker _ _ _ _ rfl rfl rfl⟩

/-- C3: for validly constructed values of equal length, the conservative
distance is the mismatch count plus one per position where either byte is
undetermined; on a value against itself it equals the number of
undetermined positions, hence is positive when one exists. -/
theorem C3_determined_only (s t : List Nat) (a b : BaseBits)
    (ha : BaseBits.new s = Except.ok a) (hb : BaseBits.new t = Except.ok b)
    (hl : a.len = b.len) :
    hamming_dist_none a b = mismatchCount s t + eitherUndetCount s t ∧
    hamming_dist_none a a = undetCount s ∧
    (0 < undetCount s → 0 < hamming_dist_none a a) := by
  have hlen : s.length = t.length := by
    rw [← new_len ha, ← new_len hb, hl]
  have hself : hamming_dist_none a a = undetCount s := by
    rw [none_eq ha ha rfl, mismatch_self, eitherUndet_self, Nat.zero_add]
  exact ⟨none_eq ha hb hlen, hself, fun hpos => hself ▸ hpos⟩

/-- Witness for C3 at `"NA"` versus `"AA"`. -/
theorem C3_determined_only_witness :
    BaseBits.new [78, 65] = Except.ok (⟨32, 2 ^ 64 - 57, 2⟩ : BaseBits) ∧
    BaseBits.new [65, 65] = Except.ok (⟨0, 2 ^ 64 - 1, 2⟩ : BaseBits) ∧
    (⟨32, 2 ^ 64 - 57, 2⟩ : BaseBits).len = (⟨0, 2 ^ 64 - 1, 2⟩ : BaseBits).len ∧
    (hamming_dist_none ⟨32, 2 ^ 64 - 57, 2⟩ ⟨0, 2 ^ 64 - 1, 2⟩ =
        mismatchCount [78, 65] [65, 65] + eitherUndetCount [78, 65] [65, 65] ∧
      hamming_dist_none ⟨32, 2 ^ 64 - 57, 2⟩ ⟨32, 2 ^ 64 - 57, 2⟩ =
        undetCount [78, 65] ∧
      (0 < undetCount [78, 65] →
        0 < hamming_dist_none ⟨32, 2 ^ 64 - 57, 2⟩ ⟨32, 2 ^ 64 - 57, 2⟩)) :=
  ⟨rfl, rfl, rfl, C3_determined_only _ _ _ _ rfl rfl rfl⟩

/-- C4: encoding fails with the `LengthExceeded` message exactly on inputs
longer than `MAX_BASES = 21`, and succeeds (returning a value) on every
input of length at most 21, regardless of content. -/
theorem C4_encode_error (s : List Nat) :
    MAX_BASES = 21 ∧
    (BaseBits.new s = Except.error "Length of string to encode exceeds MAX_BASES" ↔
      MAX_BASES < s.length) ∧
    ((∃ b, BaseBits.new s = Except.ok b) ↔ s.length ≤ MAX_BASES) := by
  refine ⟨rfl, ?_, ?_⟩
  · constructor
    · intro h
      by_contra hle
      rw [new_spec s (by omega)] at h
      exact absurd h (by simp)
    · intro h
      unfold BaseBits.new
      rw [if_pos h]
  · constructor
    · rintro ⟨b, hb⟩
      exact new_ok_length hb
    · intro h
      exact ⟨_, new_spec s h⟩

/-- C5: for validly constructed values of equal length the wildcard
distance is at most the length, vanishes on the diagonal, and is
symmetric. -/
theorem C5_metric_guarantees (s t : List Nat) (a b : BaseBits)
    (ha : BaseBits.new s = Except.ok a) (hb : BaseBits.new t = Except.ok b)
    (hl : a.len = b.len) :
    hamming_dist_nany a b ≤ a.len ∧ hamming_dist_nany a a = 0 ∧
    hamming_dist_nany a b = hamming_dist_nany b a := by
  have hlen : s.length = t.length := by
    rw [← new_len ha, ← new_len hb, hl]
  refine ⟨?_, ?_, ?_⟩
  · rw [nany_eq ha hb hlen, new_len ha]
    exact mismatchCount_le s t
  · unfold hamming_dist_nany
    rw [Nat.xor_self, Nat.zero_and]
    simp [count_ones, popCountWidth_zero]
  · unfold hamming_dist_nany
    rw [Nat.xor_comm, Nat.and_comm a.nbits b.nbits]

/-- Witness for C5 at `"ACNT"` versus `"GCAA"`. -/
theorem C5_metric_guarantees_witness :
    BaseBits.new [65, 67, 78, 84] = Except.ok (⟨421, 2 ^ 64 - 57, 4⟩ : BaseBits) ∧
    BaseBits.new [71, 67, 65, 65] = Except.ok (⟨1920, 2 ^ 64 - 1, 4⟩ : BaseBits) ∧
    (hamming_dist_nany ⟨421, 2 ^ 64 - 57, 4⟩ ⟨1920, 2 ^ 64 - 1, 4⟩ ≤
        (⟨421, 2 ^ 64 - 57, 4⟩ : BaseBits).len ∧
      hamming_dist_nany ⟨421, 2 ^ 64 - 57, 4⟩ ⟨421, 2 ^ 64 - 57, 4⟩ = 0 ∧
      hamming_dist_nany ⟨421, 2 ^ 64 - 57, 4⟩ ⟨1920, 2 ^ 64 - 1, 4⟩ =
        hamming_dist_nany ⟨1920, 2 ^ 64 - 1, 4⟩ ⟨421, 2 ^ 64 - 57, 4⟩) :=
  ⟨rfl, rfl, C5_metric_guarantees [65, 67, 78, 84] [71, 67, 65, 65] _ _ rfl rfl rfl⟩

/-- C6: any two distinct determined base codes differ in exactly 2 of
their 3 bits. -/
theorem C6_code_separation :
    ∀ x ∈ [Bases.A, Bases.C, Bases.T, Bases.G],
      ∀ y ∈ [Bases.A, Bases.C, Bases.T, Bases.G],
        x ≠ y → count_ones (x ^^^ y) = ENCODING_DIST := by
  intro x hx y hy hxy
  fin_cases hx <;> fin_cases hy <;> first | (exact absurd rfl hxy) | decide

/-- Witness for C6 at the pair `A`, `C`. -/
theorem C6_code_separation_witness :
    count_ones (Bases.A ^^^ Bases.C) = ENCODING_DIST :=
  C6_code_separation Bases.A (by decide) Bases.C (by decide) (by decide)

/-- C7 counterexample: the 3-bit group constant produced for the byte `N`
is `UNDETERMINED = 0b100`, not `0b111` as the claim states. -/
theorem C7_counterexample :
    Except.map (fun b : BaseBits => extract_bits b.code ENCODING_LENGTH)
      (BaseBits.new [78]) = Except.ok UNDETERMINED ∧ UNDETERMINED ≠ 0b111 :=
  ⟨rfl, by decide⟩

/-- C7 amended: every byte outside `A`/`C`/`G`/`T`, including the literal
`N`, is encoded as one identical 3-bit group constant, and that constant is
`0b100`. -/
theorem C7_undetermined_code (c : Nat) (h : determined c = false) :
    Except.map (fun b : BaseBits => extract_bits b.code ENCODING_LENGTH)
      (BaseBits.new [c]) = Except.ok UNDETERMINED ∧ UNDETERMINED = 0b100 := by
  refine ⟨?_, rfl⟩
  have hb : baseOf c = Bases.N := baseOf_of_not_determined (by simp [h])
  have hnew := new_spec [c] (by rw [MAX_BASES_eq]; norm_num)
  rw [hnew]
  show Except.ok (extract_bits (word (([c].map baseOf).reverse)) ENCODING_LENGTH) =
    Except.ok UNDETERMINED
  rw [extract_bits_three]
  have hw : word (([c].map baseOf).reverse) = baseOf c := by
    simp [word]
  rw [hw, hb]
  rfl

/-- Witness for the amended C7 at the byte `N` = 78. -/
theorem C7_undetermined_code_witness :
    determined 78 = false ∧
      (Except.map (fun b : BaseBits => extract_bits b.code ENCODING_LENGTH)
        (BaseBits.new [78]) = Except.ok UNDETERMINED ∧ UNDETERMINED = 0b100) :=
  ⟨rfl, C7_undetermined_code 78 rfl⟩

/-- C8: when every byte of both inputs is a determined base, the raw
`hamming_code` on the packed codes agrees with `hamming_dist_nany`. -/
theorem C8_raw_code_agreement (s t : List Nat) (a b : BaseBits)
    (ha : BaseBits.new s = Except.ok a) (hb : BaseBits.new t = Except.ok b)
    (hs : ∀ c ∈ s, determined c = true) (ht : ∀ c ∈ t, determined c = true) :
    hamming.hamming_code a.code b.code = hamming_dist_nany a b := by
  have h21s : s.length ≤ 21 := by
    have := new_ok_length ha; rwa [MAX_BASES_eq] at this
  have h21t : t.length ≤ 21 := by
    have := new_ok_length hb; rwa [MAX_BASES_eq] at this
  have hsn : a.nbits = MAX_VAL := by
    rw [new_nbits ha]; exact nbits_all_determined h21s hs
  have htn : b.nbits = MAX_VAL := by
    rw [new_nbits hb]; exact nbits_all_determined h21t ht
  have hca : a.code < 2 ^ 64 := by
    rw [new_code ha]
    have hw := word_lt _ (Groups.of_map_baseOf s)
    have hlt : (2 : Nat) ^ (3 * ((s.map baseOf).reverse).length) ≤ 2 ^ 64 := by
      apply Nat.pow_le_pow_right (by norm_num)
      simp
      omega
    omega
  have hcb : b.code < 2 ^ 64 := by
    rw [new_code hb]
    have hw := word_lt _ (Groups.of_map_baseOf t)
    have hlt : (2 : Nat) ^ (3 * ((t.map baseOf).reverse).length) ≤ 2 ^ 64 := by
      apply Nat.pow_le_pow_right (by norm_num)
      simp
      omega
    omega
  have hxlt : a.code ^^^ b.code < 2 ^ 64 := Nat.xor_lt_two_pow hca hcb
  unfold hamming.hamming_code hamming_dist_nany
  rw [hsn, htn, Nat.and_self]
  have hand : (a.code ^^^ b.code) &&& MAX_VAL = a.code ^^^ b.code := by
    unfold MAX_VAL
    rw [Nat.and_pow_two_sub_one_eq_mod]
    exact Nat.mod_eq_of_lt hxlt
  rw [hand]
  rfl

/-- Witness for C8 at `"AC"` versus `"CC"`. -/
theorem C8_raw_code_agreement_witness :
    BaseBits.new [65, 67] = Except.ok (⟨6, 2 ^ 64 - 1, 2⟩ : BaseBits) ∧
    BaseBits.new [67, 67] = Except.ok (⟨54, 2 ^ 64 - 1, 2⟩ : BaseBits) ∧
    (∀ c ∈ ([65, 67] : List Nat), determined c = true) ∧
    (∀ c ∈ ([67, 67] : List Nat), determined c = true) ∧
    hamming.hamming_code (⟨6, 2 ^ 64 - 1, 2⟩ : BaseBits).code
        (⟨54, 2 ^ 64 - 1, 2⟩ : BaseBits).code =
      hamming_dist_nany ⟨6, 2 ^ 64 - 1, 2⟩ ⟨54, 2 ^ 64 - 1, 2⟩ :=
  ⟨rfl, rfl, by decide, by decide,
    C8_raw_code_agreement [65, 67] [67, 67] _ _ rfl rfl (by decide) (by decide)⟩

/-- C9: every 3-bit group of the known mask of a validly constructed value
is all-zeros or all-ones, never partial; groups at or above the input
length are all-ones, and a group below the length is all-ones exactly when
the corresponding input byte is a determined base. -/
theorem C9_known_mask_invariant (s : List Nat) (b : BaseBits)
    (hb : BaseBits.new s = Except.ok b) (i : Nat) (hi : i < MAX_BASES) :
    ((b.nbits >>> (3 * i)) &&& 0b111 = 0b000 ∨
      (b.nbits >>> (3 * i)) &&& 0b111 = 0b111) ∧
    (b.len ≤ i → (b.nbits >>> (3 * i)) &&& 0b111 = 0b111) ∧
    (i < b.len → ((b.nbits >>> (3 * i)) &&& 0b111 =
      if determined (s.getD (b.len - 1 - i) 0) then 0b111 else 0b000)) := by
  have h21 : s.length ≤ 21 := by
    have := new_ok_length hb; rwa [MAX_BASES_eq] at this
  have hi21 : i < 21 := by rwa [MAX_BASES_eq] at hi
  have hand7 : ∀ x : Nat, x &&& 0b111 = x % 8 := by
    intro x
    have h := Nat.and_pow_two_sub_one_eq_mod x 3
    norm_num at h
    exact h
  have hg := nbits_group s h21 i hi21
  rw [new_nbits hb, new_len hb]
  simp only [hand7]
  rw [hg]
  by_cases hil : i < s.length
  · rw [if_pos hil]
    have hrev : ((s.map maskOf).reverse).getD i 0 =
        maskOf (s.getD (s.length - 1 - i) 0) := by
      have h1 := getD_reverse (s.map maskOf) i (by simpa using hil)
      rw [h1, List.length_map, getD_map_maskOf s _ (by omega)]
    rw [hrev]
    refine ⟨?_, fun hle => by omega, fun _ => ?_⟩
    · by_cases hdet : determined (s.getD (s.length - 1 - i) 0) = true
      · right; rw [maskOf_of_determined hdet]
      · left; rw [maskOf_of_not_determined hdet]
    · by_cases hdet : determined (s.getD (s.length - 1 - i) 0) = true
      · rw [maskOf_of_determined hdet, hdet, if_pos rfl]
      · have hdf : determined (s.getD (s.length - 1 - i) 0) = false := by
          simpa using hdet
        rw [maskOf_of_not_determined hdet, hdf, if_neg Bool.false_ne_true]
  · rw [if_neg hil]
    exact ⟨Or.inr rfl, fun _ => rfl, fun hlt => absurd hlt hil⟩

/-- Witness for C9 at `"AN"`, group 0. -/
theorem C9_known_mask_invariant_witness :
    BaseBits.new [65, 78] = Except.ok (⟨4, 2 ^ 64 - 8, 2⟩ : BaseBits) ∧
    0 < MAX_BASES ∧
    ((((⟨4, 2 ^ 64 - 8, 2⟩ : BaseBits).nbits >>> (3 * 0)) &&& 0b111 = 0b000 ∨
        ((⟨4, 2 ^ 64 - 8, 2⟩ : BaseBits).nbits >>> (3 * 0)) &&& 0b111 = 0b111) ∧
      ((⟨4, 2 ^ 64 - 8, 2⟩ : BaseBits).len ≤ 0 →
        ((⟨4, 2 ^ 64 - 8, 2⟩ : BaseBits).nbits >>> (3 * 0)) &&& 0b111 = 0b111) ∧
      (0 < (⟨4, 2 ^ 64 - 8, 2⟩ : BaseBits).len →
        ((⟨4, 2 ^ 64 - 8, 2⟩ : BaseBits).nbits >>> (3 * 0)) &&& 0b111 =
          if determined ([65, 78].getD ((⟨4, 2 ^ 64 - 8, 2⟩ : BaseBits).len - 1 - 0) 0)
          then 0b111 else 0b000)) :=
  ⟨rfl, by decide, C9_known_mask_invariant [65, 78] _ rfl 0 (by decide)⟩

/-- C10: the conservative distance dominates the wildcard distance for all
`BaseBits` values, since it adds a non-negative penalty to the same masked
term. -/
theorem C10_policy_monotone (a b : BaseBits) :
    hamming_dist_nany a b ≤ hamming_dist_none a b := by
  unfold hamming_dist_nany hamming_dist_none
  exact Nat.le_add_right _ _
